import Mathlib

/-!
Shallow embedding of the elevator system (service.py, main.py).

The persistent store is modelled explicitly: the two sorted-set call queues
("up" and "down") as lists of floors, the `state` hash as a `StateVal`, the
`current_floor` key as an `Option Nat`, the per-floor `intended_direction`
hash fields as an association list, and the module-level `once` flag as a
natural number.  The async functions `get_current_state`, `get_next_floor`,
`call` and `go_to` of service.py become pure state-passing functions; `go_to`
additionally returns the list of `set_current_state` writes it performs
during the tick, in order.  The FastAPI handlers of main.py that admit calls
(`go_to_floor`, `go_up`, `go_down`) are embedded with their validation logic.
-/

namespace ElevatorSystem

/-- The direction strings "up" / "down" / "idle" used by service.py. -/
inductive Direction where
  | up
  | down
  | idle
deriving DecidableEq, Repr

/-- The possible contents of the redis `state` key: a well-formed hash with
`floor` and `state` fields, a value of a non-hash type, or no value at all. -/
inductive StateVal where
  | hash (floor : Nat) (dir : Direction)
  | wrongType
  | absent
deriving DecidableEq, Repr

/-- The two sorted-set call queues, keyed `up` and `down` in redis.  Members
are `floor_N` with score `N`; we model the member set as a list of floors. -/
structure Queues where
  up : List Nat
  down : List Nat
deriving DecidableEq, Repr

/-- The whole mutable state of the service: queues, the `state` key, the
`current_floor` key, the `intended_direction` fields of the `floor_N` hashes,
and the module-level `once` flag of service.py. -/
structure Sys where
  qs : Queues
  stateKey : StateVal
  currentFloorKey : Option Nat
  intended : List (Nat × Direction)
  once : Nat
deriving DecidableEq, Repr

/-- Smallest member of the list with score ≥ `lo`: the semantics of
`ZRANGEBYSCORE key lo +inf LIMIT 0 1` on a sorted set. -/
def minGE (lo : Nat) : List Nat → Option Nat
  | [] => none
  | f :: rest =>
    if lo ≤ f then
      match minGE lo rest with
      | none => some f
      | some m => some (if f ≤ m then f else m)
    else minGE lo rest

/-- Largest member of the list with score ≤ `hi` (and ≥ 0, trivial for Nat):
the semantics of `ZREVRANGEBYSCORE key hi 0 LIMIT 0 1` on a sorted set. -/
def maxLE (hi : Nat) : List Nat → Option Nat
  | [] => none
  | f :: rest =>
    if f ≤ hi then
      match maxLE hi rest with
      | none => some f
      | some m => some (if f ≤ m then m else f)
    else maxLE hi rest

/-- service.py `get_current_state`: if the `state` key has a non-hash type it
is deleted; if the hash is then missing, defaults `{floor 1, idle}` are
persisted and returned; a well-formed hash is returned as is.  The `err`
flag models an exception anywhere in the body, in which case the defaults
are returned without touching the store. -/
def get_current_state (err : Bool) (sv : StateVal) : (Nat × Direction) × StateVal :=
  if err then ((1, Direction.idle), sv)
  else
    match sv with
    | .hash f d => ((f, d), .hash f d)
    | .wrongType => ((1, Direction.idle), .hash 1 Direction.idle)
    | .absent => ((1, Direction.idle), .hash 1 Direction.idle)

/-- service.py `get_current_floor`: the `current_floor` key, defaulting to 1. -/
def get_current_floor (s : Sys) : Nat :=
  s.currentFloorKey.getD 1

/-- service.py `add_floor`: `ZADD` of member `floor_N` with score `N`;
idempotent on the member set. -/
def add_floor (q : List Nat) (f : Nat) : List Nat :=
  if f ∈ q then q else q ++ [f]

/-- service.py `get_next_floor`: query the queue named by the direction for
the nearest member in that direction from `cf`, and if one is found remove
it (`ZREM`) before returning it.  Any other direction returns `none`. -/
def get_next_floor (qs : Queues) (d : Direction) (cf : Nat) : Option Nat × Queues :=
  match d with
  | .up =>
    match minGE cf qs.up with
    | some f => (some f, ⟨qs.up.erase f, qs.down⟩)
    | none => (none, qs)
  | .down =>
    match maxLE cf qs.down with
    | some f => (some f, ⟨qs.up, qs.down.erase f⟩)
    | none => (none, qs)
  | .idle => (none, qs)

/-- Python `abs(a - b)` on ints, for Nat-valued floors. -/
def pyAbs (a b : Nat) : Nat :=
  ((a : Int) - (b : Int)).natAbs

/-- Redis `HSET floor_N intended_direction d`: overwrite the entry for floor `f`. -/
def hset_intended (reg : List (Nat × Direction)) (f : Nat) (d : Direction) :
    List (Nat × Direction) :=
  (f, d) :: reg.filter (fun p => p.1 ≠ f)

/-- Redis `HGET floor_N intended_direction`. -/
def hget_intended (reg : List (Nat × Direction)) (f : Nat) : Option Direction :=
  (reg.find? (fun p => p.1 = f)).map Prod.snd

/-- Redis `HDEL floor_N intended_direction`. -/
def hdel_intended (reg : List (Nat × Direction)) (f : Nat) :
    List (Nat × Direction) :=
  reg.filter (fun p => p.1 ≠ f)

/-- The target-selection portion of service.py `go_to` (lines 173–206):
given the queues, the direction read from the state and the current floor,
return the chosen `(target floor, new direction)` — `none` when there is no
target — together with the queues as mutated by the `get_next_floor` calls
made along the way. -/
def go_to_select (qs : Queues) (dir : Direction) (cf : Nat) :
    Option (Nat × Direction) × Queues :=
  match dir with
  | .up =>
    match get_next_floor qs .up cf with
    | (some f, qs1) => (some (f, .up), qs1)
    | (none, qs1) =>
      match get_next_floor qs1 .down cf with
      | (some f, qs2) => (some (f, .down), qs2)
      | (none, qs2) => (none, qs2)
  | .down =>
    match get_next_floor qs .down cf with
    | (some f, qs1) => (some (f, .down), qs1)
    | (none, qs1) =>
      match get_next_floor qs1 .up cf with
      | (some f, qs2) => (some (f, .up), qs2)
      | (none, qs2) => (none, qs2)
  | .idle =>
    let r1 := get_next_floor qs .up cf
    let r2 := get_next_floor r1.2 .down cf
    match r1.1, r2.1 with
    | some fu, some fd =>
      if pyAbs cf fu ≤ pyAbs cf fd then (some (fu, .up), r2.2)
      else (some (fd, .down), r2.2)
    | some fu, none => (some (fu, .up), r2.2)
    | none, some fd => (some (fd, .down), r2.2)
    | none, none => (none, r2.2)

/-- The `set_current_state` writes issued by the movement loop of `go_to`:
moving up, `range(cf, target+1)`; moving down, `range(cf, target-1, -1)`;
each visited floor is written with the travel direction. -/
def moveWrites (cf target : Nat) (nd : Direction) : List (Nat × Direction) :=
  match nd with
  | .up => (List.range' cf (target + 1 - cf)).map (fun fl => (fl, nd))
  | .down => ((List.range' target (cf + 1 - target)).reverse).map (fun fl => (fl, nd))
  | .idle => []

/-- service.py `go_to`, one tick of the dispatch loop: read the state, select
a target (mutating the queues), and either move to it — writing every
intermediate floor, then the arrival floor, then applying and clearing any
intended-direction override — or, with no target, write `{cf, idle}` exactly
when the `once` flag is not yet 1.  Returns the new system state and the
ordered list of `set_current_state` writes performed. -/
def go_to (s : Sys) : Sys × List (Nat × Direction) :=
  let res := get_current_state false s.stateKey
  let cf := res.1.1
  let dir := res.1.2
  let sk := res.2
  match go_to_select s.qs dir cf with
  | (some (target, nd), qs') =>
    let w := moveWrites cf target nd ++ [(target, nd)]
    match hget_intended s.intended target with
    | some idir =>
      ({ qs := qs', stateKey := .hash target idir, currentFloorKey := some target,
         intended := hdel_intended s.intended target, once := s.once },
       w ++ [(target, idir)])
    | none =>
      ({ qs := qs', stateKey := .hash target nd, currentFloorKey := some target,
         intended := s.intended, once := s.once }, w)
  | (none, qs') =>
    if s.once ≠ 1 then
      ({ qs := qs', stateKey := .hash cf .idle, currentFloorKey := s.currentFloorKey,
         intended := s.intended, once := 1 }, [(cf, Direction.idle)])
    else
      ({ qs := qs', stateKey := sk, currentFloorKey := s.currentFloorKey,
         intended := s.intended, once := s.once }, [])

/-- Outcome of service.py `call`: normal completion, the explicit
"Already at the requested floor" return of the internal branch, or a raised
exception (the external branch with `floor == current_floor` leaves
`pickup_queue` unbound and raises `UnboundLocalError`). -/
inductive CallResult where
  | ok
  | alreadyThere
  | error
deriving DecidableEq, Repr

/-- service.py `call`: resets `once` to 0 first, reads the current floor,
then either admits an external call (direction given: classify by
`floor > cf` / `floor < cf` into the up/down queue and overwrite the
intended-direction entry; `floor == cf` raises) or an internal call
(direction `none`: `floor == cf` returns "already there", otherwise classify
into the up/down queue; no intended-direction write). -/
def call (s : Sys) (floor : Nat) (direction : Option Direction) : Sys × CallResult :=
  let s0 : Sys := { s with once := 0 }
  let cf := get_current_floor s0
  match direction with
  | some d =>
    if floor > cf then
      ({ s0 with qs := ⟨add_floor s0.qs.up floor, s0.qs.down⟩,
                 intended := hset_intended s0.intended floor d }, .ok)
    else if floor < cf then
      ({ s0 with qs := ⟨s0.qs.up, add_floor s0.qs.down floor⟩,
                 intended := hset_intended s0.intended floor d }, .ok)
    else
      (s0, .error)
  | none =>
    if cf = floor then (s0, .alreadyThere)
    else if cf < floor then
      ({ s0 with qs := ⟨add_floor s0.qs.up floor, s0.qs.down⟩ }, .ok)
    else
      ({ s0 with qs := ⟨s0.qs.up, add_floor s0.qs.down floor⟩ }, .ok)

/-- main.py `MAX_FLOOR`. -/
def MAX_FLOOR : Nat := 20

/-- HTTP outcome of the call-admission handlers in main.py. -/
inductive ApiResult where
  | success
  | clientError
  | serverError
deriving DecidableEq, Repr

/-- main.py `go_to_floor` (`POST /go/{floor}`), the internal car call:
rejects `floor > MAX_FLOOR or floor < 1` with a 400, otherwise delegates
to `call(floor=floor)`. -/
def go_to_floor (s : Sys) (floor : Int) : Sys × ApiResult :=
  if floor > (MAX_FLOOR : Int) ∨ floor < 1 then (s, .clientError)
  else
    let r := call s floor.toNat none
    (r.1, .success)

/-- main.py `go_up` (`POST /{floor}/up`), the external hall call going up:
rejects only `floor < 1` with a 400, otherwise delegates to
`call(floor, "up")`; an exception from `call` becomes a 500. -/
def go_up (s : Sys) (floor : Int) : Sys × ApiResult :=
  if floor < 1 then (s, .clientError)
  else
    let r := call s floor.toNat (some .up)
    match r.2 with
    | .error => (r.1, .serverError)
    | _ => (r.1, .success)

/-- main.py `go_down` (`POST /{floor}/down`), the external hall call going
down: rejects only `floor < 1` with a 400, otherwise delegates to
`call(floor, "down")`; an exception from `call` becomes a 500. -/
def go_down (s : Sys) (floor : Int) : Sys × ApiResult :=
  if floor < 1 then (s, .clientError)
  else
    let r := call s floor.toNat (some .down)
    match r.2 with
    | .error => (r.1, .serverError)
    | _ => (r.1, .success)

/-- Spec-side characterisation: `f` is the up-candidate, i.e. the smallest
member of the queue that is ≥ `cf`. -/
def IsNearestUp (q : List Nat) (cf f : Nat) : Prop :=
  f ∈ q ∧ cf ≤ f ∧ ∀ x ∈ q, cf ≤ x → f ≤ x

/-- Spec-side characterisation: `f` is the down-candidate, i.e. the largest
member of the queue that is ≤ `cf`. -/
def IsNearestDown (q : List Nat) (cf f : Nat) : Prop :=
  f ∈ q ∧ f ≤ cf ∧ ∀ x ∈ q, x ≤ cf → x ≤ f

/-- Spec-side: the queue has no member ≥ `cf` (no up-candidate). -/
def NoUpCand (q : List Nat) (cf : Nat) : Prop :=
  ∀ x ∈ q, x < cf

/-- Spec-side: the queue has no member ≤ `cf` (no down-candidate). -/
def NoDownCand (q : List Nat) (cf : Nat) : Prop :=
  ∀ x ∈ q, cf < x

instance (q : List Nat) (cf f : Nat) : Decidable (IsNearestUp q cf f) := by
  unfold IsNearestUp; infer_instance

instance (q : List Nat) (cf f : Nat) : Decidable (IsNearestDown q cf f) := by
  unfold IsNearestDown; infer_instance

instance (q : List Nat) (cf : Nat) : Decidable (NoUpCand q cf) := by
  unfold NoUpCand; infer_instance

instance (q : List Nat) (cf : Nat) : Decidable (NoDownCand q cf) := by
  unfold NoDownCand; infer_instance

/-- The query `minGE` finds no member exactly when every member is below `lo`. -/
theorem minGE_eq_none (lo : Nat) (q : List Nat) :
    minGE lo q = none ↔ NoUpCand q lo := by
  induction q with
  | nil => simp [minGE, NoUpCand]
  | cons f rest ih =>
    by_cases hf : lo ≤ f
    · cases hr : minGE lo rest <;>
      · simp only [minGE, hf, if_true, hr, NoUpCand, List.forall_mem_cons]
        constructor
        · intro h; exact absurd h (by simp)
        · intro h; exact absurd h.1 (Nat.not_lt.mpr hf)
    · have hflt : f < lo := Nat.lt_of_not_le hf
      simp only [minGE, hf, if_false, NoUpCand, List.forall_mem_cons] at ih ⊢
      rw [ih]
      simp [hflt]

/-- A member returned by `minGE` is the smallest member ≥ `lo`. -/
theorem minGE_isNearestUp (lo : Nat) (q : List Nat) (m : Nat)
    (h : minGE lo q = some m) : IsNearestUp q lo m := by
  induction q generalizing m with
  | nil => simp [minGE] at h
  | cons f rest ih =>
    by_cases hf : lo ≤ f
    · cases hr : minGE lo rest with
      | none =>
        simp only [minGE, hf, if_true, hr, Option.some.injEq] at h
        subst h
        refine ⟨List.mem_cons_self _ _, hf, ?_⟩
        intro x hx _
        rcases List.mem_cons.mp hx with h1 | h1
        · exact Nat.le_of_eq h1.symm
        · exact absurd ((minGE_eq_none lo rest).mp hr x h1)
            (Nat.not_lt.mpr (by assumption))
      | some m' =>
        simp only [minGE, hf, if_true, hr, Option.some.injEq] at h
        subst h
        obtain ⟨hm1, hm2, hm3⟩ := ih m' hr
        by_cases hle : f ≤ m'
        · rw [if_pos hle]
          refine ⟨List.mem_cons_self _ _, hf, ?_⟩
          intro x hx hlox
          rcases List.mem_cons.mp hx with h1 | h1
          · subst h1; exact Nat.le_refl _
          · exact Nat.le_trans hle (hm3 x h1 hlox)
        · rw [if_neg hle]
          have hle' : m' ≤ f := by omega
          refine ⟨List.mem_cons_of_mem _ hm1, hm2, ?_⟩
          intro x hx hlox
          rcases List.mem_cons.mp hx with h1 | h1
          · subst h1; exact hle'
          · exact hm3 x h1 hlox
    · simp only [minGE, hf, if_false] at h
      obtain ⟨hm1, hm2, hm3⟩ := ih m h
      refine ⟨List.mem_cons_of_mem _ hm1, hm2, ?_⟩
      intro x hx hlox
      rcases List.mem_cons.mp hx with h1 | h1
      · subst h1; exact absurd hlox hf
      · exact hm3 x h1 hlox

/-- Conversely, the smallest member ≥ `lo` is what `minGE` returns. -/
theorem isNearestUp_minGE (lo : Nat) (q : List Nat) (m : Nat)
    (h : IsNearestUp q lo m) : minGE lo q = some m := by
  cases hr : minGE lo q with
  | none =>
    exact absurd ((minGE_eq_none lo q).mp hr m h.1) (Nat.not_lt.mpr h.2.1)
  | some m' =>
    have h' := minGE_isNearestUp lo q m' hr
    have hmm : m = m' :=
      Nat.le_antisymm (h.2.2 m' h'.1 h'.2.1) (h'.2.2 m h.1 h.2.1)
    rw [hmm]

/-- The query `maxLE` finds no member exactly when every member is above `hi`. -/
theorem maxLE_eq_none (hi : Nat) (q : List Nat) :
    maxLE hi q = none ↔ NoDownCand q hi := by
  induction q with
  | nil => simp [maxLE, NoDownCand]
  | cons f rest ih =>
    by_cases hf : f ≤ hi
    · cases hr : maxLE hi rest <;>
      · simp only [maxLE, hf, if_true, hr, NoDownCand, List.forall_mem_cons]
        constructor
        · intro h; exact absurd h (by simp)
        · intro h; exact absurd h.1 (Nat.not_lt.mpr hf)
    · have hflt : hi < f := Nat.lt_of_not_le hf
      simp only [maxLE, hf, if_false, NoDownCand, List.forall_mem_cons] at ih ⊢
      rw [ih]
      simp [hflt]

/-- A member returned by `maxLE` is the largest member ≤ `hi`. -/
theorem maxLE_isNearestDown (hi : Nat) (q : List Nat) (m : Nat)
    (h : maxLE hi q = some m) : IsNearestDown q hi m := by
  induction q generalizing m with
  | nil => simp [maxLE] at h
  | cons f rest ih =>
    by_cases hf : f ≤ hi
    · cases hr : maxLE hi rest with
      | none =>
        simp only [maxLE, hf, if_true, hr, Option.some.injEq] at h
        subst h
        refine ⟨List.mem_cons_self _ _, hf, ?_⟩
        intro x hx _
        rcases List.mem_cons.mp hx with h1 | h1
        · exact Nat.le_of_eq h1
        · exact absurd ((maxLE_eq_none hi rest).mp hr x h1)
            (Nat.not_lt.mpr (by assumption))
      | some m' =>
        simp only [maxLE, hf, if_true, hr, Option.some.injEq] at h
        subst h
        obtain ⟨hm1, hm2, hm3⟩ := ih m' hr
        by_cases hle : f ≤ m'
        · rw [if_pos hle]
          refine ⟨List.mem_cons_of_mem _ hm1, hm2, ?_⟩
          intro x hx hxhi
          rcases List.mem_cons.mp hx with h1 | h1
          · subst h1; exact hle
          · exact hm3 x h1 hxhi
        · rw [if_neg hle]
          have hle' : m' ≤ f := by omega
          refine ⟨List.mem_cons_self _ _, hf, ?_⟩
          intro x hx hxhi
          rcases List.mem_cons.mp hx with h1 | h1
          · subst h1; exact Nat.le_refl _
          · exact Nat.le_trans (hm3 x h1 hxhi) hle'
    · simp only [maxLE, hf, if_false] at h
      obtain ⟨hm1, hm2, hm3⟩ := ih m h
      refine ⟨List.mem_cons_of_mem _ hm1, hm2, ?_⟩
      intro x hx hxhi
      rcases List.mem_cons.mp hx with h1 | h1
      · subst h1; exact absurd hxhi hf
      · exact hm3 x h1 hxhi

/-- Conversely, the largest member ≤ `hi` is what `maxLE` returns. -/
theorem isNearestDown_maxLE (hi : Nat) (q : List Nat) (m : Nat)
    (h : IsNearestDown q hi m) : maxLE hi q = some m := by
  cases hr : maxLE hi q with
  | none =>
    exact absurd ((maxLE_eq_none hi q).mp hr m h.1) (Nat.not_lt.mpr h.2.1)
  | some m' =>
    have h' := maxLE_isNearestDown hi q m' hr
    have hmm : m = m' :=
      Nat.le_antisymm (h'.2.2 m h.1 h.2.1) (h.2.2 m' h'.1 h'.2.1)
    rw [hmm]

/-- After deleting the `intended_direction` entry for a floor, reading it
yields nothing. -/
theorem hget_intended_hdel (reg : List (Nat × Direction)) (f : Nat) :
    hget_intended (hdel_intended reg f) f = none := by
  have hfind : (reg.filter (fun p => decide (p.1 ≠ f))).find?
      (fun p => decide (p.1 = f)) = none := by
    rw [List.find?_eq_none]
    intro x hx
    have hmem := (List.mem_filter.mp hx).2
    simp only [decide_eq_true_eq] at hmem ⊢
    exact hmem
  simp only [hget_intended, hdel_intended, hfind]
  rfl

/-- After overwriting the `intended_direction` entry for a floor, reading it
yields the new value. -/
theorem hget_intended_hset (reg : List (Nat × Direction)) (f : Nat)
    (d : Direction) : hget_intended (hset_intended reg f d) f = some d := by
  simp [hget_intended, hset_intended, List.find?_cons]

/-- After overwriting the entry for a floor, that floor's entries are exactly
the one just written. -/
theorem hset_intended_filter (reg : List (Nat × Direction)) (f : Nat)
    (d : Direction) :
    (hset_intended reg f d).filter (fun p => decide (p.1 = f)) = [(f, d)] := by
  have hnil : (reg.filter (fun p => decide (p.1 ≠ f))).filter
      (fun p => decide (p.1 = f)) = [] := by
    rw [List.filter_eq_nil_iff]
    intro a ha
    have hmem := (List.mem_filter.mp ha).2
    simp only [decide_eq_true_eq] at hmem ⊢
    exact hmem
  simp [hset_intended, List.filter_cons, hnil]

/-- Admission via `call` resets the module-level `once` flag to 0 on every path. -/
theorem call_once_eq_zero (s : Sys) (f : Nat) (d : Option Direction) :
    ((call s f d).1).once = 0 := by
  cases d <;> simp only [call] <;> split <;> first | rfl | (split <;> rfl)

/-- Admission via `call` never touches the `current_floor` key. -/
theorem call_currentFloorKey (s : Sys) (f : Nat) (d : Option Direction) :
    ((call s f d).1).currentFloorKey = s.currentFloorKey := by
  cases d <;> simp only [call] <;> split <;> first | rfl | (split <;> rfl)

/-- Claim C1: target selection should remove exactly the selected target
floor and leave every other member of both queues in place (`peekNearest`
must not mutate).  The code violates this: on an Idle tick at floor 5 with
up-queue {8} and down-queue {3}, floor 3 is selected (direction down), yet
floor 8 has also been removed from the up-queue by the selection itself and
is lost — both queues end empty. -/
theorem c1_idle_selection_drops_unchosen_candidate :
    (go_to ⟨⟨[8], [3]⟩, .hash 5 .idle, some 5, [], 1⟩).1.stateKey
        = StateVal.hash 3 Direction.down ∧
    (go_to ⟨⟨[8], [3]⟩, .hash 5 .idle, some 5, [], 1⟩).1.qs
        = (⟨[], []⟩ : Queues) := by
  decide

/-- Claim C3: a hall call whose floor equals the current floor should be a
no-op reporting "already there".  The code instead raises
`UnboundLocalError` — the equal-floor branch only logs and then falls
through to `add_floor` with `pickup_queue` unbound: at current floor 5,
`call(5, "up")` errors, the queues and registry untouched, `once` reset. -/
theorem c3_hall_call_at_current_floor_raises :
    (call ⟨⟨[], []⟩, .hash 5 .idle, some 5, [], 1⟩ 5 (some Direction.up)).2
        = CallResult.error ∧
    (call ⟨⟨[], []⟩, .hash 5 .idle, some 5, [], 1⟩ 5 (some Direction.up)).1
        = (⟨⟨[], []⟩, .hash 5 .idle, some 5, [], 0⟩ : Sys) := by
  decide

/-- Claim C4: every admission request with a floor outside [1, MAX_FLOOR]
should be rejected and never enqueued.  The hall-call handler `go_up` checks
only `floor < 1`: at floor 21 with MAX_FLOOR = 20 it reports success and
floor 21 is enqueued in the up-queue, while the car-call handler
`go_to_floor` does reject floor 21. -/
theorem c4_hall_call_above_max_floor_admitted :
    (go_up ⟨⟨[], []⟩, .hash 1 .idle, some 1, [], 0⟩ 21).2 = ApiResult.success ∧
    21 ∈ (go_up ⟨⟨[], []⟩, .hash 1 .idle, some 1, [], 0⟩ 21).1.qs.up ∧
    (go_to_floor ⟨⟨[], []⟩, .hash 1 .idle, some 1, [], 0⟩ 21).2
        = ApiResult.clientError ∧
    (21 : Int) > (MAX_FLOOR : Int) := by
  decide

/-- Claim C8: reading the elevator state never propagates a fault: on a read
error the defaults {floor 1, idle} are returned with the store untouched;
a wrong-typed `state` key is discarded and replaced by the persisted
defaults; a missing `state` key is replaced by the persisted defaults. -/
theorem c8_state_read_fault_tolerance :
    (∀ sv, get_current_state true sv = ((1, Direction.idle), sv)) ∧
    get_current_state false StateVal.wrongType
        = ((1, Direction.idle), StateVal.hash 1 Direction.idle) ∧
    get_current_state false StateVal.absent
        = ((1, Direction.idle), StateVal.hash 1 Direction.idle) := by
  exact ⟨fun sv => rfl, rfl, rfl⟩

/-- Claim C5, counterexample: ticking with direction up at floor 5, the
up-queue empty and the down-queue non-empty but holding only floor 10 (which
is above the arrival floor), the tick selects no target at all and settles
idle — it does not switch to Down — refuting the claim as stated. -/
theorem c5_reversal_counterexample :
    (go_to_select ⟨[], [10]⟩ Direction.up 5).1 = none ∧
    ([10] : List Nat) ≠ [] ∧
    (go_to ⟨⟨[], [10]⟩, .hash 5 .up, some 5, [], 0⟩).1.stateKey
        = StateVal.hash 5 Direction.idle := by
  decide

/-- Claim C5, amended: if the scheduler ticks with direction up, the
up-queue has no member ≥ currentFloor, and the down-queue holds a member ≤
currentFloor, then the selected next target switches the direction to Down
and equals the nearest (largest) down-queue member ≤ the arrival floor. -/
theorem c5_reversal_correctness (qs : Queues) (cf fd : Nat)
    (hup : NoUpCand qs.up cf) (hdn : IsNearestDown qs.down cf fd) :
    (go_to_select qs Direction.up cf).1 = some (fd, Direction.down) := by
  have h1 : minGE cf qs.up = none := (minGE_eq_none cf qs.up).mpr hup
  have h2 : maxLE cf qs.down = some fd := isNearestDown_maxLE cf qs.down fd hdn
  simp [go_to_select, get_next_floor, h1, h2]

/-- Witness for the amended C5 at a concrete state: up-queue empty,
down-queue {3}, ticking up at floor 5 selects floor 3 going down. -/
theorem c5_reversal_correctness_witness :
    (go_to_select ⟨[], [3]⟩ Direction.up 5).1 = some (3, Direction.down) :=
  c5_reversal_correctness ⟨[], [3]⟩ 5 3 (by decide) (by decide)

/-- Claim C2: on an Idle tick the scheduler computes the nearest up-queue
member ≥ currentFloor and the nearest down-queue member ≤ currentFloor; with
both present it selects the one at the smaller absolute distance from
currentFloor, ties resolving to Up; with only one present it takes that one
with its direction; with neither it selects no target (stays Idle). -/
theorem c2_idle_tick_selection (qs : Queues) (cf fu fd : Nat) :
    (IsNearestUp qs.up cf fu → IsNearestDown qs.down cf fd →
      (go_to_select qs Direction.idle cf).1 =
        (if pyAbs cf fu ≤ pyAbs cf fd then some (fu, Direction.up)
         else some (fd, Direction.down))) ∧
    (IsNearestUp qs.up cf fu → NoDownCand qs.down cf →
      (go_to_select qs Direction.idle cf).1 = some (fu, Direction.up)) ∧
    (NoUpCand qs.up cf → IsNearestDown qs.down cf fd →
      (go_to_select qs Direction.idle cf).1 = some (fd, Direction.down)) ∧
    (NoUpCand qs.up cf → NoDownCand qs.down cf →
      (go_to_select qs Direction.idle cf).1 = none) := by
  refine ⟨?_, ?_, ?_, ?_⟩
  · intro hu hd
    have h1 : minGE cf qs.up = some fu := isNearestUp_minGE cf qs.up fu hu
    have h2 : maxLE cf qs.down = some fd := isNearestDown_maxLE cf qs.down fd hd
    simp only [go_to_select, get_next_floor, h1, h2]
    split <;> rfl
  · intro hu hd
    have h1 : minGE cf qs.up = some fu := isNearestUp_minGE cf qs.up fu hu
    have h2 : maxLE cf qs.down = none := (maxLE_eq_none cf qs.down).mpr hd
    simp only [go_to_select, get_next_floor, h1, h2]
  · intro hu hd
    have h1 : minGE cf qs.up = none := (minGE_eq_none cf qs.up).mpr hu
    have h2 : maxLE cf qs.down = some fd := isNearestDown_maxLE cf qs.down fd hd
    simp only [go_to_select, get_next_floor, h1, h2]
  · intro hu hd
    have h1 : minGE cf qs.up = none := (minGE_eq_none cf qs.up).mpr hu
    have h2 : maxLE cf qs.down = none := (maxLE_eq_none cf qs.down).mpr hd
    simp only [go_to_select, get_next_floor, h1, h2]

/-- Witness for C2 at the spec's own scenario: idle at floor 5 with
up-queue {8} and down-queue {3}; |5−8| = 3 > |5−3| = 2, so floor 3 going
down is selected. -/
theorem c2_idle_tick_selection_witness :
    (go_to_select ⟨[8], [3]⟩ Direction.idle 5).1 = some (3, Direction.down) := by
  have h := (c2_idle_tick_selection ⟨[8], [3]⟩ 5 8 3).1 (by decide) (by decide)
  rw [h]
  decide

/-- Claim C6: with both queues empty the scheduler writes {currentFloor,
idle} exactly once — on the first tick that finds no target (`once ≠ 1`) —
sets the settled flag, and performs no state write on the following
no-target tick; any call admission resets the flag, after which the next
no-target tick writes the idle state once again. -/
theorem c6_idle_convergence_exactly_once (s : Sys) (cf : Nat) (d : Direction)
    (hup : s.qs.up = []) (hdn : s.qs.down = [])
    (hsk : s.stateKey = StateVal.hash cf d) :
    (s.once ≠ 1 →
      (go_to s).2 = [(cf, Direction.idle)] ∧
      (go_to s).1.once = 1 ∧
      (go_to s).1.stateKey = StateVal.hash cf Direction.idle ∧
      (go_to s).1.qs = s.qs ∧
      (go_to (go_to s).1).2 = []) ∧
    (s.once = 1 → (go_to s).2 = []) ∧
    (∀ f dir, ((call s f dir).1).once = 0) ∧
    (go_to ((call s (get_current_floor s) none).1)).2 = [(cf, Direction.idle)] := by
  have hq : s.qs = (⟨[], []⟩ : Queues) := by
    cases hqs : s.qs with
    | mk u dn => rw [hqs] at hup hdn; simp only at hup hdn; rw [hup, hdn]
  have hsel : ∀ (dir' : Direction) (cf' : Nat),
      go_to_select ⟨[], []⟩ dir' cf' = (none, ⟨[], []⟩) := by
    intro dir' cf'; cases dir' <;> rfl
  refine ⟨?_, ?_, ?_, ?_⟩
  · intro h1
    simp only [go_to, hsk, get_current_state, hq, hsel, h1, if_true, ite_not]
    simp [hq, hsel, go_to, get_current_state]
  · intro h1
    simp [go_to, hsk, get_current_state, hq, hsel, h1]
  · intro f dir
    exact call_once_eq_zero s f dir
  · have hc : (call s (get_current_floor s) none).1 = { s with once := 0 } := by
      simp [call, get_current_floor]
    rw [hc]
    simp [go_to, hsk, get_current_state, hq, hsel]

/-- Witness for C6: starting at floor 4 moving up with both queues empty and
the flag clear, the tick writes {4, idle} once and the next tick writes
nothing. -/
theorem c6_idle_convergence_exactly_once_witness :
    (go_to ⟨⟨[], []⟩, .hash 4 .up, some 4, [], 0⟩).2 = [(4, Direction.idle)] ∧
    (go_to (go_to ⟨⟨[], []⟩, .hash 4 .up, some 4, [], 0⟩).1).2 = [] := by
  have h := (c6_idle_convergence_exactly_once
      ⟨⟨[], []⟩, .hash 4 .up, some 4, [], 0⟩ 4 Direction.up rfl rfl rfl).1
      (by decide)
  exact ⟨h.1, h.2.2.2.2⟩

/-- Claim C7: intended-direction entries are created only by hall calls —
car calls (`call` with no direction) never touch the registry — and when the
cab arrives at a target floor holding an entry, the elevator's direction is
overwritten with the registered direction and the entry deleted: right after
the tick the state is {target, registered direction} and the registry holds
nothing for that floor. -/
theorem c7_intended_direction_override (s : Sys) (cf t : Nat)
    (dir nd idir : Direction) (qs' : Queues)
    (hsk : s.stateKey = StateVal.hash cf dir)
    (hsel : go_to_select s.qs dir cf = (some (t, nd), qs'))
    (hreg : hget_intended s.intended t = some idir) :
    (go_to s).1.stateKey = StateVal.hash t idir ∧
    hget_intended ((go_to s).1).intended t = none ∧
    (∀ f, ((call s f none).1).intended = s.intended) := by
  refine ⟨?_, ?_, ?_⟩
  · simp [go_to, hsk, get_current_state, hsel, hreg]
  · simp [go_to, hsk, get_current_state, hsel, hreg, hget_intended_hdel]
  · intro f
    simp only [call]
    split <;> first | rfl | (split <;> rfl)

/-- Witness for C7: hall call left a Down entry for floor 10; the cab moving
up from floor 5 with up-queue {10} arrives at 10 and comes out facing Down
with the entry cleared. -/
theorem c7_intended_direction_override_witness :
    (go_to ⟨⟨[10], []⟩, .hash 5 .up, some 5, [(10, Direction.down)], 0⟩).1.stateKey
        = StateVal.hash 10 Direction.down ∧
    hget_intended ((go_to ⟨⟨[10], []⟩, .hash 5 .up, some 5,
        [(10, Direction.down)], 0⟩).1).intended 10 = none := by
  have h := c7_intended_direction_override
      ⟨⟨[10], []⟩, .hash 5 .up, some 5, [(10, Direction.down)], 0⟩
      5 10 Direction.up Direction.up Direction.down ⟨[], []⟩
      rfl (by decide) (by decide)
  exact ⟨h.1, h.2.1⟩

/-- A hall call away from the current floor stores its direction by
overwriting the floor's registry entry. -/
theorem call_hall_sets_intended (s : Sys) (f : Nat) (d : Direction)
    (hne : f ≠ get_current_floor s) :
    ((call s f (some d)).1).intended = hset_intended s.intended f d := by
  have hcf : get_current_floor { s with once := 0 } = get_current_floor s := rfl
  simp only [call]
  by_cases hgt : f > get_current_floor s
  · rw [if_pos (by rwa [hcf])]
  · have hlt : f < get_current_floor s := by omega
    rw [if_neg (by rwa [hcf]), if_pos (by rwa [hcf])]

/-- Claim C9: the intended-direction registry keeps at most one direction
per floor with last-writer-wins semantics: for a floor distinct from the
current floor, after two hall calls for it the registry holds exactly the
second call's direction, and only that entry. -/
theorem c9_registry_last_writer_wins (s : Sys) (f : Nat) (d1 d2 : Direction)
    (hne : f ≠ get_current_floor s) :
    ((call (call s f (some d1)).1 f (some d2)).1).intended.filter
        (fun p => decide (p.1 = f)) = [(f, d2)] ∧
    hget_intended ((call (call s f (some d1)).1 f (some d2)).1).intended f
        = some d2 := by
  have hcf1 : get_current_floor (call s f (some d1)).1 = get_current_floor s := by
    unfold get_current_floor
    rw [call_currentFloorKey]
  have h1 := call_hall_sets_intended s f d1 hne
  have h2 := call_hall_sets_intended (call s f (some d1)).1 f d2 (by rwa [hcf1])
  rw [h2, h1]
  exact ⟨hset_intended_filter _ f d2, hget_intended_hset _ f d2⟩

/-- Witness for C9: from floor 1, hall calls for floor 7 going up then going
down leave exactly one registry entry for floor 7, holding down. -/
theorem c9_registry_last_writer_wins_witness :
    ((call (call ⟨⟨[], []⟩, .hash 1 .idle, some 1, [], 0⟩ 7
        (some Direction.up)).1 7 (some Direction.down)).1).intended.filter
        (fun p => decide (p.1 = 7)) = [(7, Direction.down)] :=
  (c9_registry_last_writer_wins ⟨⟨[], []⟩, .hash 1 .idle, some 1, [], 0⟩
      7 Direction.up Direction.down (by decide)).1

/-- Claim C10: every invocation of `call` resets the settled flag to 0
before anything else, so even an invocation that reports "already there" or
raises leaves `once = 0` — with the state otherwise untouched on those
paths — and the next no-target tick writes the idle state again. -/
theorem c10_call_resets_settled (s : Sys) (f : Nat) (d : Option Direction) :
    ((call s f d).1).once = 0 ∧
    ((call s f d).2 = CallResult.alreadyThere ∨ (call s f d).2 = CallResult.error →
      (call s f d).1 = { s with once := 0 }) := by
  refine ⟨call_once_eq_zero s f d, ?_⟩
  intro h
  cases d with
  | none =>
    by_cases hc : get_current_floor { s with once := 0 } = f
    · simp [call, hc]
    · by_cases hlt : get_current_floor { s with once := 0 } < f
      · simp [call, hc, hlt] at h
      · simp [call, hc, hlt] at h
  | some dd =>
    by_cases hgt : f > get_current_floor { s with once := 0 }
    · simp [call, hgt] at h
    · by_cases hlt : f < get_current_floor { s with once := 0 }
      · simp [call, hgt, hlt] at h
      · simp [call, hgt, hlt]

/-- Witness for C10: a car call for the current floor 3 reports "already
there" and its only effect is clearing the settled flag. -/
theorem c10_call_resets_settled_witness :
    (call ⟨⟨[], []⟩, .hash 3 .idle, some 3, [], 1⟩ 3 none).1
        = (⟨⟨[], []⟩, .hash 3 .idle, some 3, [], 0⟩ : Sys) :=
  (c10_call_resets_settled ⟨⟨[], []⟩, .hash 3 .idle, some 3, [], 1⟩ 3 none).2
      (Or.inl (by decide))

end ElevatorSystem
